import Mathlib

/-!
Verification of `src/Mathematics/diophantine.py`: a solver for linear
Diophantine equations `a1*x1 + ... + an*xn = c` restricted to nonnegative
integer solutions.  The symbolic step (`sympy.diophantine`) is an external
collaborator; the pipeline is parameterized over it as a `Solver` value,
and the concrete scenarios instantiate it with solution families modelled
from the spec's contract for the external solver.
-/

namespace Diophantine

/-- A symbolic linear expression over named integer parameters, as returned by
the external symbolic solver: its value under an assignment `v` is
`const + Σ (s, c) ∈ pcoeffs, c * v s`. -/
structure LinExpr where
  pcoeffs : List (String × ℤ)
  const : ℤ
  deriving DecidableEq, Repr

/-- Evaluate an expression under a parameter assignment (`expr.subs(...)`;
for an expression with no free symbols this is the expression's own value). -/
def LinExpr.eval (e : LinExpr) (v : String → ℤ) : ℤ :=
  e.const + (e.pcoeffs.map (fun p => p.2 * v p.1)).sum

/-- The free symbols of an expression (`expr.free_symbols`): the parameters
occurring with a nonzero coefficient. -/
def LinExpr.freeSymbols (e : LinExpr) : List String :=
  (e.pcoeffs.filter (fun p => decide (p.2 ≠ 0))).map Prod.fst

/-- One parametric solution: an ordered tuple of expressions, one per
(deduplicated) variable. -/
abbrev ParamSol := List LinExpr

/-- The external symbolic solver: from the simplified coefficients and the
constant to the family of parametric solutions of the instantiated equation
(`diophantine(Eq(lhs, constant))`). -/
abbrev Solver := List ℤ → ℤ → List ParamSol

/-- All parameters used across all expressions of one solution, as the sorted
list of the distinct names
(`sorted(set().union(*[expr.free_symbols for expr in sol]), key=lambda s: s.name)`). -/
def allParams (sol : ParamSol) : List String :=
  ((sol.foldr (fun e acc => LinExpr.freeSymbols e ++ acc) []).dedup).insertionSort (· ≤ ·)

/-- Evaluate every expression of a solution under one assignment
(`[expr.subs(subs) for expr in sol]`). -/
def evalSol (sol : ParamSol) (v : String → ℤ) : List ℤ :=
  sol.map (fun e => e.eval v)

/-- The assignment `dict(zip(all_params, values))` as a total function (the
default value 0 is never consulted on the free symbols of the solution). -/
def assignOf (params : List String) (values : List ℤ) : String → ℤ :=
  fun s => ((params.zip values).lookup s).getD 0

/-- The list `range(-B, B + 1)` of integers. -/
def paramRange (B : ℤ) : List ℤ :=
  (List.range (2 * B + 1).toNat).map (fun (i : ℕ) => -B + (i : ℤ))

/-- The list `itertools.product(r, repeat=k)`: all `k`-tuples over `r`. -/
def hypercube (r : List ℤ) : ℕ → List (List ℤ)
  | 0 => [[]]
  | k + 1 => r.flatMap (fun x => (hypercube r k).map (fun vs => x :: vs))

/-- The value `min(abs(coeff) for coeff in simplified_coeffs)` (0 on the empty
list, which cannot occur for a nonempty coefficient input). -/
def minAbsCoeff : List ℤ → ℤ
  | [] => 0
  | c :: cs => cs.foldl (fun m d => min m |d|) |c|

/-- Deduplicate `(coefficient, name)` pairs, keeping the first occurrence of
each coefficient value (the `seen` loop of the normalizer). -/
def dedupPairs : List (ℤ × String) → List ℤ → List ℤ × List String
  | [], _ => ([], [])
  | (c, v) :: rest, seen =>
    if c ∈ seen then dedupPairs rest seen
    else
      let r := dedupPairs rest (c :: seen)
      (c :: r.1, v :: r.2)

/-- The normalizer output: deduplicated coefficients and matching names
(`zip(coeffs, var_names)` truncates to the shorter list). -/
def simplified (coeffs : List ℤ) (names : List String) : List ℤ × List String :=
  dedupPairs (coeffs.zip names) []

/-- Resolve the optional variable-name list, defaulting to `x1 .. xn` from the
original (pre-dedup) coefficient list. -/
def resolveNames (coeffs : List ℤ) (var_names : Option (List String)) : List String :=
  var_names.getD ((List.range coeffs.length).map (fun i => "x" ++ toString (i + 1)))

/-- Process one parametric solution (the body of the `for sol in sol_set`
loop): with no free parameters, accept the concrete tuple iff every component
is nonnegative; otherwise enumerate the parameter hypercube bounded by
`min(bound_limit, constant ** 2 // min_coeff)` and accept every substitution
whose components are all nonnegative. -/
def solBranch (sc : List ℤ) (constant bound_limit : ℤ) (sol : ParamSol) :
    List (List ℤ) :=
  let ps := allParams sol
  if ps.isEmpty then
    let t := evalSol sol (fun _ => 0)
    if t.all (fun x => decide (0 ≤ x)) then [t] else []
  else
    let param_bound := min bound_limit (constant ^ 2 / minAbsCoeff sc)
    ((hypercube (paramRange param_bound) ps.length).map
        (fun vs => evalSol sol (assignOf ps vs))).filter
      (fun t => t.all (fun x => decide (0 ≤ x)))

/-- The operation `valid_solutions.add(t)`: set-insertion into the
accumulated list. -/
def addSol (acc : List (List ℤ)) (t : List ℤ) : List (List ℤ) :=
  if t ∈ acc then acc else acc ++ [t]

/-- The accumulated `valid_solutions` set across all parametric solutions, as
a duplicate-free list. -/
def collectSolutions (sc : List ℤ) (constant bound_limit : ℤ)
    (solSet : List ParamSol) : List (List ℤ) :=
  (solSet.flatMap (solBranch sc constant bound_limit)).foldl addSol []

/-- The value returned by one call: the sorted solution tuples, the variable
names actually used, and the diagnostic lines printed along the way (the
symbolic payload of the analytical-solution line is abstracted away). -/
structure Output where
  solutions : List (List ℤ)
  vars : List String
  log : List String
  deriving DecidableEq, Repr

/-- The whole pipeline of `solve_linear_diophantine_nonnegative`, parameterized
over the external symbolic solver.  A zero coefficient raises
`AssertionError('Each coefficient must be nonzero.')`, modelled as
`Except.error`; `sorted(valid_solutions)` orders the duplicate-free tuple set
ascending lexicographically. -/
def solve_linear_diophantine_nonnegative (solver : Solver) (coeffs : List ℤ)
    (constant : ℤ) (var_names : Option (List String)) (bound_limit : ℤ)
    (verbose : Bool) : Except String Output :=
  if coeffs.any (fun c => decide (c = 0)) then
    Except.error "Each coefficient must be nonzero."
  else
    let names := resolveNames coeffs var_names
    let sv := simplified coeffs names
    let log1 := if sv.2.length < names.length ∧ verbose = true then
        ["[INFO] Simplified equation due to duplicate coefficients"] else []
    let solSet := solver sv.1 constant
    let log2 := if verbose then
        [if solSet.length = 1 then "[INFO] Analytical solution is the parametric family"
         else "[INFO] Analytical solutions are the parametric families"] else []
    let result :=
      (collectSolutions sv.1 constant bound_limit solSet).insertionSort (· ≤ ·)
    Except.ok ⟨result, sv.2, log1 ++ log2⟩

/-- Dot product of a coefficient vector with a value vector: the left-hand side
`sum(coeff * var for ...)` of the instantiated equation. -/
def dot (a b : List ℤ) : ℤ :=
  ((a.zip b).map (fun p => p.1 * p.2)).sum

/-! ### Basic lemmas about the accumulation of `valid_solutions` -/

theorem mem_addSol {acc : List (List ℤ)} {a t : List ℤ} :
    t ∈ addSol acc a ↔ t ∈ acc ∨ t = a := by
  unfold addSol
  split
  · rename_i h
    constructor
    · exact Or.inl
    · rintro (ht | rfl) <;> assumption
  · simp

theorem mem_foldl_addSol : ∀ (l acc : List (List ℤ)) (t : List ℤ),
    t ∈ l.foldl addSol acc ↔ t ∈ acc ∨ t ∈ l
  | [], acc, t => by simp
  | a :: l, acc, t => by
    rw [List.foldl_cons, mem_foldl_addSol l (addSol acc a) t, mem_addSol]
    simp [or_assoc]

theorem nodup_addSol {acc : List (List ℤ)} (a : List ℤ) (h : acc.Nodup) :
    (addSol acc a).Nodup := by
  unfold addSol
  split
  · exact h
  · rename_i ha
    simp [List.nodup_append, h, ha]

theorem nodup_foldl_addSol : ∀ (l acc : List (List ℤ)), acc.Nodup →
    (l.foldl addSol acc).Nodup
  | [], _, h => h
  | a :: l, acc, h => by
    rw [List.foldl_cons]
    exact nodup_foldl_addSol l _ (nodup_addSol a h)

theorem mem_collectSolutions {sc : List ℤ} {constant bound_limit : ℤ}
    {solSet : List ParamSol} {t : List ℤ} :
    t ∈ collectSolutions sc constant bound_limit solSet ↔
      ∃ sol ∈ solSet, t ∈ solBranch sc constant bound_limit sol := by
  unfold collectSolutions
  rw [mem_foldl_addSol]
  simp [List.mem_flatMap]

theorem mem_solBranch {sc : List ℤ} {constant bound_limit : ℤ} {sol : ParamSol}
    {t : List ℤ} (h : t ∈ solBranch sc constant bound_limit sol) :
    (∃ v, t = evalSol sol v) ∧ ∀ x ∈ t, 0 ≤ x := by
  simp only [solBranch] at h
  split at h
  · split at h
    · rename_i hall
      rw [List.mem_singleton] at h
      subst h
      refine ⟨⟨fun _ => 0, rfl⟩, ?_⟩
      intro x hx
      have := List.all_eq_true.mp hall x hx
      exact of_decide_eq_true this
    · cases h
  · rw [List.mem_filter] at h
    obtain ⟨hmem, hall⟩ := h
    rw [List.mem_map] at hmem
    obtain ⟨vs, -, rfl⟩ := hmem
    refine ⟨⟨_, rfl⟩, ?_⟩
    intro x hx
    have := List.all_eq_true.mp hall x hx
    exact of_decide_eq_true this

theorem solve_ok_fields {solver : Solver} {coeffs : List ℤ} {constant : ℤ}
    {var_names : Option (List String)} {bound_limit : ℤ} {verbose : Bool} {out : Output}
    (hok : solve_linear_diophantine_nonnegative solver coeffs constant var_names
      bound_limit verbose = Except.ok out) :
    out.solutions = (collectSolutions (simplified coeffs (resolveNames coeffs var_names)).1
        constant bound_limit
        (solver (simplified coeffs (resolveNames coeffs var_names)).1 constant)).insertionSort
        (· ≤ ·) ∧
    out.vars = (simplified coeffs (resolveNames coeffs var_names)).2 := by
  unfold solve_linear_diophantine_nonnegative at hok
  split at hok
  · cases hok
  · injection hok with hok
    subst hok
    exact ⟨rfl, rfl⟩

/-! ### Solvers for the concrete scenarios, modelled from the spec -/

/-- Modelled from the spec: the external symbolic Diophantine solver
(`sympy.diophantine`), which is not part of this repository.  On the
simplified equation `5*a = 10` (after the normalizer collapses the duplicate
coefficient in `[5, 5]`) it returns the single parameter-free solution `(2,)`. -/
def sympyFamily_5_10 : Solver := fun _ _ => [[⟨[], 2⟩]]

/-- Modelled from the spec: the external symbolic Diophantine solver
(`sympy.diophantine`), which is not part of this repository.  On the equation
`2*x1 + 4*x2 = 7` it returns no parametric solution family, since an even
left-hand side can never equal 7. -/
def sympyFamily_2_4_7 : Solver := fun _ _ => []

/-- Modelled from the spec: the external symbolic Diophantine solver
(`sympy.diophantine`), which is not part of this repository.  On the
simplified equation `1*x1 = 0` (after the normalizer collapses the duplicate
coefficient in `[1, 1]`) it returns the single parameter-free solution `(0,)`. -/
def sympyFamily_1_0 : Solver := fun _ _ => [[⟨[], 0⟩]]

/-! ### Claim theorems -/

/-- C2: for every valid input (nonempty nonzero coefficients, integer
constant, optional matching names), every component of every tuple returned by
`solve_linear_diophantine_nonnegative` is a nonnegative integer. -/
theorem C2_components_nonneg (solver : Solver) (coeffs : List ℤ) (constant : ℤ)
    (var_names : Option (List String)) (bound_limit : ℤ) (verbose : Bool) (out : Output)
    (hne : coeffs ≠ []) (hnz : ∀ c ∈ coeffs, c ≠ 0)
    (hnames : ∀ ns, var_names = some ns → ns.length = coeffs.length)
    (hok : solve_linear_diophantine_nonnegative solver coeffs constant var_names
      bound_limit verbose = Except.ok out)
    (t : List ℤ) (ht : t ∈ out.solutions) (x : ℤ) (hx : x ∈ t) : 0 ≤ x := by
  obtain ⟨hsols, -⟩ := solve_ok_fields hok
  rw [hsols, List.mem_insertionSort, mem_collectSolutions] at ht
  obtain ⟨sol, -, hsb⟩ := ht
  exact (mem_solBranch hsb).2 x hx

/-- C2 witness: the component of the tuple returned for coefficients `[5, 5]`
and constant 10 is nonnegative. -/
theorem C2_witness : (0 : ℤ) ≤ 2 :=
  C2_components_nonneg sympyFamily_5_10 [5, 5] 10 (some ["a", "b"]) 100 true
    ⟨[[2]], ["a"], ["[INFO] Simplified equation due to duplicate coefficients",
      "[INFO] Analytical solution is the parametric family"]⟩
    (by decide) (by decide) (by intro ns h; cases h; rfl) rfl
    [2] (by simp) 2 (by simp)

/-- C4: for every coefficient list containing a zero anywhere, and for any
constant and any variable-name list, `solve_linear_diophantine_nonnegative`
signals the invalid-argument failure eagerly (for every solver, i.e. before
any solving work), aborting the whole computation with no partial result. -/
theorem C4_zero_coefficient_aborts (solver : Solver) (coeffs : List ℤ) (constant : ℤ)
    (var_names : Option (List String)) (bound_limit : ℤ) (verbose : Bool)
    (h : (0 : ℤ) ∈ coeffs) :
    solve_linear_diophantine_nonnegative solver coeffs constant var_names bound_limit
      verbose = Except.error "Each coefficient must be nonzero." := by
  unfold solve_linear_diophantine_nonnegative
  rw [if_pos]
  rw [List.any_eq_true]
  exact ⟨0, h, by simp⟩

/-- C4 witness: a zero coefficient in `[0, 3]` aborts with the
invalid-argument message. -/
theorem C4_witness :
    solve_linear_diophantine_nonnegative sympyFamily_5_10 [0, 3] 1 none 100 true =
      Except.error "Each coefficient must be nonzero." :=
  C4_zero_coefficient_aborts sympyFamily_5_10 [0, 3] 1 none 100 true (by decide)

/-- C7: for the input coefficients `[2, 4]` and constant 7, with the external
solver returning the empty parametric family (spec-modelled), the function
returns the empty sequence of tuples: an unsolvable equation is not an error. -/
theorem C7_unsolvable_empty_result :
    ∃ lg, solve_linear_diophantine_nonnegative sympyFamily_2_4_7 [2, 4] 7 none 100 true =
      Except.ok ⟨[], ["x1", "x2"], lg⟩ :=
  ⟨_, rfl⟩

/-- C8 counterexample: for coefficients `[1, 1]` and constant 0 the code
deduplicates the repeated coefficient 1, so the result is the one-element
sequence `[(0,)]` over the single variable `x1`, not `[(0, 0)]` as claimed. -/
theorem C8_counterexample :
    ∃ out, solve_linear_diophantine_nonnegative sympyFamily_1_0 [1, 1] 0 none 100 true =
        Except.ok out ∧ out.solutions = [[0]] ∧ ¬ out.solutions = [[0, 0]] :=
  ⟨_, rfl, rfl, by decide⟩

/-- C8 (amended): for the input coefficients `[1, 1]` and constant 0, the
duplicate coefficient is collapsed by the normalizer and
`solve_linear_diophantine_nonnegative` returns exactly the one-element
sequence `[(0,)]`, with variable-name list `["x1"]`. -/
theorem C8_amended_single_zero :
    ∃ lg, solve_linear_diophantine_nonnegative sympyFamily_1_0 [1, 1] 0 none 100 true =
      Except.ok ⟨[[0]], ["x1"], lg⟩ :=
  ⟨_, rfl⟩

/-- C9: for every input, the solution-tuple sequence and the variable-name
list returned by `solve_linear_diophantine_nonnegative` are identical for
`verbose = true` and `verbose = false`: the verbose flag influences only the
diagnostic printing, never the result. -/
theorem C9_verbose_only_affects_log (solver : Solver) (coeffs : List ℤ) (constant : ℤ)
    (var_names : Option (List String)) (bound_limit : ℤ) :
    (solve_linear_diophantine_nonnegative solver coeffs constant var_names bound_limit
        true).map (fun o => (o.solutions, o.vars)) =
      (solve_linear_diophantine_nonnegative solver coeffs constant var_names bound_limit
        false).map (fun o => (o.solutions, o.vars)) := by
  unfold solve_linear_diophantine_nonnegative
  split <;> rfl

/-- C1: for every coefficient list of nonzero integers, every constant, and
every variable-name list of matching length, every tuple in the first
component of the result, when dotted with the deduplicated coefficient
vector, equals the target constant exactly — given the spec's contract for
the external solver, that every assignment of the free parameters of each
returned parametric solution yields a concrete solution of the simplified
equation. -/
theorem C1_dot_eq_constant (solver : Solver) (coeffs : List ℤ) (constant : ℤ)
    (names : List String) (bound_limit : ℤ) (verbose : Bool) (out : Output)
    (hnz : ∀ c ∈ coeffs, c ≠ 0) (hlen : names.length = coeffs.length)
    (hsolver : ∀ sol ∈ solver (simplified coeffs names).1 constant, ∀ v,
      dot (simplified coeffs names).1 (evalSol sol v) = constant)
    (hok : solve_linear_diophantine_nonnegative solver coeffs constant (some names)
      bound_limit verbose = Except.ok out)
    (t : List ℤ) (ht : t ∈ out.solutions) :
    dot (simplified coeffs names).1 t = constant := by
  obtain ⟨hsols, -⟩ := solve_ok_fields hok
  rw [hsols, List.mem_insertionSort, mem_collectSolutions] at ht
  obtain ⟨sol, hsol, hsb⟩ := ht
  obtain ⟨⟨v, rfl⟩, -⟩ := mem_solBranch hsb
  exact hsolver sol hsol v

/-- C1 witness: the tuple returned for coefficients `[5, 5]` and constant 10
dots with the deduplicated coefficient vector `[5]` to 10. -/
theorem C1_witness : dot (simplified [5, 5] ["a", "b"]).1 [2] = 10 :=
  C1_dot_eq_constant sympyFamily_5_10 [5, 5] 10 ["a", "b"] 100 true
    ⟨[[2]], ["a"], ["[INFO] Simplified equation due to duplicate coefficients",
      "[INFO] Analytical solution is the parametric family"]⟩
    (by decide) rfl
    (by
      intro sol hsol v
      simp only [sympyFamily_5_10, List.mem_singleton] at hsol
      subst hsol
      rfl)
    rfl [2] (by simp)

/-- C5: for every input accepted by `solve_linear_diophantine_nonnegative`,
the returned sequence of tuples contains no duplicates and is sorted
ascending, lexicographically by tuple value. -/
theorem C5_nodup_sorted (solver : Solver) (coeffs : List ℤ) (constant : ℤ)
    (var_names : Option (List String)) (bound_limit : ℤ) (verbose : Bool) (out : Output)
    (hok : solve_linear_diophantine_nonnegative solver coeffs constant var_names
      bound_limit verbose = Except.ok out) :
    out.solutions.Nodup ∧
      out.solutions.Sorted (fun s u : List ℤ => s = u ∨ List.Lex (· < ·) s u) := by
  obtain ⟨hsols, -⟩ := solve_ok_fields hok
  rw [hsols]
  constructor
  · exact (List.perm_insertionSort _ _).nodup_iff.mpr
      (nodup_foldl_addSol _ _ List.nodup_nil)
  · exact (List.sorted_insertionSort _ _).imp
      (fun hab => (eq_or_lt_of_le hab).imp id (fun h => h))

/-- C5 witness: the sequence returned for coefficients `[5, 5]` and constant
10 is duplicate-free and sorted. -/
theorem C5_witness :
    ([[2]] : List (List ℤ)).Nodup ∧
      ([[2]] : List (List ℤ)).Sorted (fun s u => s = u ∨ List.Lex (· < ·) s u) :=
  C5_nodup_sorted sympyFamily_5_10 [5, 5] 10 (some ["a", "b"]) 100 true
    ⟨[[2]], ["a"], ["[INFO] Simplified equation due to duplicate coefficients",
      "[INFO] Analytical solution is the parametric family"]⟩ rfl

/-! ### The parameter hypercube -/

theorem mem_paramRange {B x : ℤ} : x ∈ paramRange B ↔ -B ≤ x ∧ x ≤ B := by
  unfold paramRange
  constructor
  · intro hx
    obtain ⟨i, hi, rfl⟩ := List.mem_map.mp hx
    rw [List.mem_range] at hi
    omega
  · rintro ⟨h1, h2⟩
    refine List.mem_map.mpr ⟨(x + B).toNat, ?_, ?_⟩
    · rw [List.mem_range]
      omega
    · omega

theorem mem_hypercube {r : List ℤ} : ∀ {k : ℕ} {vs : List ℤ},
    vs ∈ hypercube r k ↔ vs.length = k ∧ ∀ x ∈ vs, x ∈ r := by
  intro k
  induction k with
  | zero =>
    intro vs
    constructor
    · rintro hm
      simp only [hypercube, List.mem_singleton] at hm
      subst hm
      simp
    · rintro ⟨hlen, -⟩
      rw [List.length_eq_zero] at hlen
      subst hlen
      simp [hypercube]
  | succ k ih =>
    intro vs
    simp only [hypercube, List.mem_flatMap, List.mem_map]
    constructor
    · rintro ⟨x, hx, ws, hws, rfl⟩
      obtain ⟨hlen, hall⟩ := ih.mp hws
      refine ⟨by simp [hlen], ?_⟩
      rintro y hy
      rcases List.mem_cons.mp hy with rfl | hy
      · exact hx
      · exact hall y hy
    · rintro ⟨hlen, hall⟩
      cases vs with
      | nil => cases hlen
      | cons x ws =>
        refine ⟨x, hall x (List.mem_cons_self x ws), ws, ih.mpr ⟨by simpa using hlen, ?_⟩, rfl⟩
        exact fun y hy => hall y (List.mem_cons_of_mem x hy)

/-- C6: for every parametric solution with at least one free parameter, the
enumerator uses the single symmetric bound
`B = min(bound_limit, constant ^ 2 / min |coefficient|)` over the
deduplicated coefficients for every parameter, enumerates the integer
combinations of the hypercube `[-B, B] ^ k` (where `k` is the number of free
parameters, each coordinate ranging over the whole interval), and accepts
exactly the substitutions under which every evaluated component is
nonnegative. -/
theorem C6_bounded_hypercube_enumeration (sc : List ℤ) (constant bound_limit : ℤ)
    (sol : ParamSol) (t : List ℤ) (hne : allParams sol ≠ []) :
    t ∈ solBranch sc constant bound_limit sol ↔
      ∃ vs : List ℤ,
        vs.length = (allParams sol).length ∧
        (∀ x ∈ vs, -(min bound_limit (constant ^ 2 / minAbsCoeff sc)) ≤ x ∧
          x ≤ min bound_limit (constant ^ 2 / minAbsCoeff sc)) ∧
        evalSol sol (assignOf (allParams sol) vs) = t ∧
        ∀ x ∈ t, 0 ≤ x := by
  simp only [solBranch]
  rw [if_neg (by simpa [List.isEmpty_iff] using hne)]
  rw [List.mem_filter]
  constructor
  · rintro ⟨hmem, hall⟩
    rw [List.mem_map] at hmem
    obtain ⟨vs, hvs, rfl⟩ := hmem
    obtain ⟨hlen, hbound⟩ := mem_hypercube.mp hvs
    refine ⟨vs, hlen, ?_, rfl, ?_⟩
    · exact fun x hx => mem_paramRange.mp (hbound x hx)
    · intro x hx
      exact of_decide_eq_true (List.all_eq_true.mp hall x hx)
  · rintro ⟨vs, hlen, hbound, rfl, hpos⟩
    refine ⟨?_, ?_⟩
    · rw [List.mem_map]
      exact ⟨vs, mem_hypercube.mpr ⟨hlen, fun x hx => mem_paramRange.mpr (hbound x hx)⟩, rfl⟩
    · rw [List.all_eq_true]
      exact fun x hx => decide_eq_true (hpos x hx)

/-- C6 witness: the enumeration characterization at the parametric family
`(1 + 3 t, 1 - 2 t)` for the equation `2 x + 3 y = 5` with bound limit 5. -/
theorem C6_witness :
    allParams [⟨[("t", 3)], 1⟩, ⟨[("t", -2)], 1⟩] ≠ [] ∧
      ([1, 1] ∈ solBranch [2, 3] 5 5 [⟨[("t", 3)], 1⟩, ⟨[("t", -2)], 1⟩] ↔
        ∃ vs : List ℤ,
          vs.length = (allParams [⟨[("t", 3)], 1⟩, ⟨[("t", -2)], 1⟩]).length ∧
          (∀ x ∈ vs, -(min 5 ((5 : ℤ) ^ 2 / minAbsCoeff [2, 3])) ≤ x ∧
            x ≤ min 5 ((5 : ℤ) ^ 2 / minAbsCoeff [2, 3])) ∧
          evalSol [⟨[("t", 3)], 1⟩, ⟨[("t", -2)], 1⟩]
            (assignOf (allParams [⟨[("t", 3)], 1⟩, ⟨[("t", -2)], 1⟩]) vs) = [1, 1] ∧
          ∀ x ∈ ([1, 1] : List ℤ), 0 ≤ x) :=
  ⟨by decide, C6_bounded_hypercube_enumeration [2, 3] 5 5 _ [1, 1] (by decide)⟩

/-! ### Truncating zips for short name lists -/

theorem zip_take_length : ∀ (a : List ℤ) (b : List String),
    a.zip b = (a.take b.length).zip b
  | [], b => by simp
  | _ :: _, [] => rfl
  | x :: a, y :: b => by
    simp only [List.length_cons, List.take_succ_cons, List.zip_cons_cons]
    rw [← zip_take_length a b]

/-- C10: for every coefficient list of nonzero integers and every explicitly
supplied variable-name list shorter than the coefficient list, the call does
not fail, and it returns the same result as calling with the coefficient list
cut down to the length of the name list: the pairing step silently truncates,
dropping the trailing coefficients from the equation. -/
theorem C10_short_names_truncate (solver : Solver) (coeffs : List ℤ) (constant : ℤ)
    (names : List String) (bound_limit : ℤ) (verbose : Bool)
    (hnz : ∀ c ∈ coeffs, c ≠ 0) (hshort : names.length < coeffs.length) :
    (∃ out, solve_linear_diophantine_nonnegative solver coeffs constant (some names)
        bound_limit verbose = Except.ok out) ∧
      solve_linear_diophantine_nonnegative solver coeffs constant (some names)
          bound_limit verbose =
        solve_linear_diophantine_nonnegative solver (coeffs.take names.length) constant
          (some names) bound_limit verbose := by
  have hany : ¬(coeffs.any (fun c => decide (c = 0)) = true) := by
    rw [List.any_eq_true]
    rintro ⟨c, hc, hdec⟩
    exact hnz c hc (of_decide_eq_true hdec)
  have hany2 : ¬((coeffs.take names.length).any (fun c => decide (c = 0)) = true) := by
    rw [List.any_eq_true]
    rintro ⟨c, hc, hdec⟩
    exact hnz c (List.mem_of_mem_take hc) (of_decide_eq_true hdec)
  constructor
  · unfold solve_linear_diophantine_nonnegative
    rw [if_neg hany]
    exact ⟨_, rfl⟩
  · unfold solve_linear_diophantine_nonnegative
    rw [if_neg hany, if_neg hany2]
    have hz := zip_take_length coeffs names
    simp only [resolveNames, Option.getD_some, simplified, hz]

/-- C10 witness: with nonzero coefficients `[5, 5, 7]` and the two names
`["a", "b"]`, the call succeeds and agrees with the call on `[5, 5]`. -/
theorem C10_witness :
    (∃ out, solve_linear_diophantine_nonnegative sympyFamily_5_10 [5, 5, 7] 10
        (some ["a", "b"]) 100 true = Except.ok out) ∧
      solve_linear_diophantine_nonnegative sympyFamily_5_10 [5, 5, 7] 10
          (some ["a", "b"]) 100 true =
        solve_linear_diophantine_nonnegative sympyFamily_5_10
          ([5, 5, 7].take (["a", "b"] : List String).length) 10 (some ["a", "b"]) 100 true :=
  C10_short_names_truncate sympyFamily_5_10 [5, 5, 7] 10 ["a", "b"] 100 true
    (by decide) (by decide)

/-! ### The normalizer keeps only the first occurrence of each coefficient -/

theorem dedupPairs_snd_subset : ∀ (l : List (ℤ × String)) (seen : List ℤ),
    (dedupPairs l seen).2 ⊆ l.map Prod.snd
  | [], _ => by simp [dedupPairs]
  | (c, v) :: rest, seen => by
    simp only [dedupPairs, List.map_cons]
    split
    · intro x hx
      exact List.mem_cons_of_mem _ (dedupPairs_snd_subset rest seen hx)
    · intro x hx
      rcases List.mem_cons.mp hx with rfl | hx
      · exact List.mem_cons_self _ _
      · exact List.mem_cons_of_mem _ (dedupPairs_snd_subset rest (c :: seen) hx)

theorem dedupPairs_seen_dropped :
    ∀ (B C : List (ℤ × String)) (seen : List ℤ) (c : ℤ) (v2 : String),
    c ∈ seen → v2 ∉ B.map Prod.snd → v2 ∉ C.map Prod.snd →
    v2 ∉ (dedupPairs (B ++ (c, v2) :: C) seen).2
  | [], C, seen, c, v2, hc, _, hC => by
    simp only [List.nil_append, dedupPairs, if_pos hc]
    intro hmem
    exact hC (dedupPairs_snd_subset C seen hmem)
  | (b, w) :: B, C, seen, c, v2, hc, hB, hC => by
    simp only [List.cons_append, dedupPairs, List.map_cons] at *
    split
    · exact dedupPairs_seen_dropped B C seen c v2 hc
        (fun h => hB (List.mem_cons_of_mem _ h)) hC
    · intro hmem
      rcases List.mem_cons.mp hmem with heq | hmem
      · exact hB (heq ▸ List.mem_cons_self _ _)
      · exact dedupPairs_seen_dropped B C (b :: seen) c v2
          (List.mem_cons_of_mem _ hc) (fun h => hB (List.mem_cons_of_mem _ h)) hC hmem

theorem dedupPairs_later_dropped :
    ∀ (A B C : List (ℤ × String)) (seen : List ℤ) (c : ℤ) (v1 v2 : String),
    v2 ∉ A.map Prod.snd → v2 ≠ v1 → v2 ∉ B.map Prod.snd → v2 ∉ C.map Prod.snd →
    v2 ∉ (dedupPairs (A ++ (c, v1) :: (B ++ (c, v2) :: C)) seen).2
  | [], B, C, seen, c, v1, v2, _, hv1, hB, hC => by
    simp only [List.nil_append, dedupPairs]
    split
    · rename_i hc
      exact dedupPairs_seen_dropped B C seen c v2 hc hB hC
    · intro hmem
      rcases List.mem_cons.mp hmem with heq | hmem
      · exact hv1 heq
      · exact dedupPairs_seen_dropped B C (c :: seen) c v2
          (List.mem_cons_self _ _) hB hC hmem
  | (a, w) :: A, B, C, seen, c, v1, v2, hA, hv1, hB, hC => by
    simp only [List.cons_append, dedupPairs, List.map_cons] at *
    split
    · exact dedupPairs_later_dropped A B C seen c v1 v2
        (fun h => hA (List.mem_cons_of_mem _ h)) hv1 hB hC
    · intro hmem
      rcases List.mem_cons.mp hmem with heq | hmem
      · exact hA (heq ▸ List.mem_cons_self _ _)
      · exact dedupPairs_later_dropped A B C (a :: seen) c v1 v2
          (fun h => hA (List.mem_cons_of_mem _ h)) hv1 hB hC hmem

theorem mem_dedupPairs_fst : ∀ (l : List (ℤ × String)) (seen : List ℤ) (c : ℤ),
    c ∈ (dedupPairs l seen).1 ↔ c ∈ l.map Prod.fst ∧ c ∉ seen
  | [], seen, c => by simp [dedupPairs]
  | (a, w) :: l, seen, c => by
    simp only [dedupPairs, List.map_cons]
    split
    · rename_i ha
      rw [mem_dedupPairs_fst l seen c, List.mem_cons]
      constructor
      · rintro ⟨hm, hs⟩
        exact ⟨Or.inr hm, hs⟩
      · rintro ⟨hm | hm, hs⟩
        · exact absurd (hm ▸ ha) hs
        · exact ⟨hm, hs⟩
    · rename_i ha
      simp only [List.mem_cons, mem_dedupPairs_fst l (a :: seen) c]
      constructor
      · rintro (rfl | ⟨hm, hs⟩)
        · exact ⟨Or.inl rfl, ha⟩
        · exact ⟨Or.inr hm, fun h => hs (Or.inr h)⟩
      · rintro ⟨hm | hm, hs⟩
        · exact Or.inl hm
        · by_cases hca : c = a
          · exact Or.inl hca
          · exact Or.inr ⟨hm, fun h => hs (h.resolve_left hca)⟩

theorem nodup_dedupPairs_fst : ∀ (l : List (ℤ × String)) (seen : List ℤ),
    (dedupPairs l seen).1.Nodup
  | [], _ => by simp [dedupPairs]
  | (a, w) :: l, seen => by
    simp only [dedupPairs]
    split
    · exact nodup_dedupPairs_fst l seen
    · rw [List.nodup_cons]
      refine ⟨?_, nodup_dedupPairs_fst l (a :: seen)⟩
      intro ha
      exact ((mem_dedupPairs_fst l (a :: seen) a).mp ha).2 (List.mem_cons_self _ _)

theorem dedupPairs_length_eq : ∀ (l : List (ℤ × String)) (seen : List ℤ),
    (dedupPairs l seen).1.length = (dedupPairs l seen).2.length
  | [], _ => rfl
  | (a, w) :: l, seen => by
    simp only [dedupPairs]
    split
    · exact dedupPairs_length_eq l seen
    · simp [dedupPairs_length_eq l (a :: seen)]

/-- C3: if two coefficients are equal, the later (coefficient, name) pair is
dropped entirely, preserving the first occurrence — the second variable name
is absent from the returned variable-name list, and every returned tuple has
length equal to the number of distinct coefficients (given the spec's
contract that the solver returns one expression per simplified variable);
concretely, coefficients `[5, 5]` with constant 10 and names `["a", "b"]`
yield the variable list `["a"]` and the result `[(2,)]`. -/
theorem C3_duplicate_coefficient_dropped (solver : Solver)
    (p q r : List ℤ) (c : ℤ) (np nq nr : List String) (v1 v2 : String)
    (constant bound_limit : ℤ) (verbose : Bool) (out : Output)
    (hp : np.length = p.length) (hq : nq.length = q.length) (hr : nr.length = r.length)
    (hnd : (np ++ v1 :: (nq ++ v2 :: nr)).Nodup)
    (hok : solve_linear_diophantine_nonnegative solver (p ++ c :: (q ++ c :: r)) constant
      (some (np ++ v1 :: (nq ++ v2 :: nr))) bound_limit verbose = Except.ok out)
    (hsollen : ∀ sol ∈ solver
        (simplified (p ++ c :: (q ++ c :: r)) (np ++ v1 :: (nq ++ v2 :: nr))).1 constant,
      sol.length =
        (simplified (p ++ c :: (q ++ c :: r)) (np ++ v1 :: (nq ++ v2 :: nr))).1.length) :
    v2 ∉ out.vars ∧
      (∀ t ∈ out.solutions, t.length = (p ++ c :: (q ++ c :: r)).toFinset.card) ∧
      (∃ lg, solve_linear_diophantine_nonnegative sympyFamily_5_10 [5, 5] 10
        (some ["a", "b"]) 100 true = Except.ok ⟨[[2]], ["a"], lg⟩) := by
  obtain ⟨hsols, hvars⟩ := solve_ok_fields hok
  simp only [resolveNames, Option.getD_some] at hsols hvars
  have h1 : (v1 :: (nq ++ v2 :: nr)).Nodup := hnd.of_append_right
  have h2 : (nq ++ v2 :: nr).Nodup := (List.nodup_cons.mp h1).2
  have hv2nr : v2 ∉ nr := (List.nodup_cons.mp h2.of_append_right).1
  have hv2nq : v2 ∉ nq := fun h =>
    (List.disjoint_of_nodup_append h2) h (List.mem_cons_self _ _)
  have hv2v1 : v2 ≠ v1 := fun heq =>
    (List.nodup_cons.mp h1).1 (heq ▸ List.mem_append_right nq (List.mem_cons_self _ _))
  have hv2np : v2 ∉ np := fun h =>
    (List.disjoint_of_nodup_append hnd) h
      (List.mem_cons_of_mem _ (List.mem_append_right nq (List.mem_cons_self _ _)))
  have hzip : (p ++ c :: (q ++ c :: r)).zip (np ++ v1 :: (nq ++ v2 :: nr)) =
      p.zip np ++ (c, v1) :: (q.zip nq ++ (c, v2) :: r.zip nr) := by
    rw [List.zip_append hp.symm, List.zip_cons_cons, List.zip_append hq.symm,
      List.zip_cons_cons]
  refine ⟨?_, ?_, ⟨_, rfl⟩⟩
  · rw [hvars]
    show v2 ∉ (dedupPairs ((p ++ c :: (q ++ c :: r)).zip (np ++ v1 :: (nq ++ v2 :: nr))) []).2
    rw [hzip]
    refine dedupPairs_later_dropped (p.zip np) (q.zip nq) (r.zip nr) [] c v1 v2 ?_ hv2v1 ?_ ?_
    · rw [List.map_snd_zip p np (le_of_eq hp)]
      exact hv2np
    · rw [List.map_snd_zip q nq (le_of_eq hq)]
      exact hv2nq
    · rw [List.map_snd_zip r nr (le_of_eq hr)]
      exact hv2nr
  · intro t ht
    rw [hsols, List.mem_insertionSort, mem_collectSolutions] at ht
    obtain ⟨sol, hsol, hsb⟩ := ht
    obtain ⟨⟨v, rfl⟩, -⟩ := mem_solBranch hsb
    have hlen1 : (evalSol sol v).length = sol.length := List.length_map _ _
    have hlen2 := hsollen sol hsol
    have hnames_len : (np ++ v1 :: (nq ++ v2 :: nr)).length =
        (p ++ c :: (q ++ c :: r)).length := by
      simp only [List.length_append, List.length_cons, hp, hq, hr]
    have hfst : ((p ++ c :: (q ++ c :: r)).zip (np ++ v1 :: (nq ++ v2 :: nr))).map Prod.fst
        = p ++ c :: (q ++ c :: r) :=
      List.map_fst_zip _ _ (le_of_eq hnames_len.symm)
    have hnodup := nodup_dedupPairs_fst
      ((p ++ c :: (q ++ c :: r)).zip (np ++ v1 :: (nq ++ v2 :: nr))) []
    have hcard : (simplified (p ++ c :: (q ++ c :: r))
        (np ++ v1 :: (nq ++ v2 :: nr))).1.length
        = (p ++ c :: (q ++ c :: r)).toFinset.card := by
      show (dedupPairs ((p ++ c :: (q ++ c :: r)).zip
        (np ++ v1 :: (nq ++ v2 :: nr))) []).1.length = _
      rw [← List.toFinset_card_of_nodup hnodup]
      congr 1
      ext x
      simp only [List.mem_toFinset]
      rw [mem_dedupPairs_fst, hfst]
      simp
    rw [hlen1, hlen2, hcard]

/-- C3 witness: the instantiation at coefficients `[5, 5]`, constant 10 and
names `["a", "b"]`. -/
theorem C3_witness :
    "b" ∉ (["a"] : List String) ∧
      (∀ t ∈ ([[2]] : List (List ℤ)), t.length = ([5, 5] : List ℤ).toFinset.card) ∧
      (∃ lg, solve_linear_diophantine_nonnegative sympyFamily_5_10 [5, 5] 10
        (some ["a", "b"]) 100 true = Except.ok ⟨[[2]], ["a"], lg⟩) :=
  C3_duplicate_coefficient_dropped sympyFamily_5_10 [] [] [] 5 [] [] [] "a" "b" 10 100 true
    ⟨[[2]], ["a"], ["[INFO] Simplified equation due to duplicate coefficients",
      "[INFO] Analytical solution is the parametric family"]⟩
    rfl rfl rfl (by decide) rfl (by decide)

end Diophantine
